import Mathlib

/-!
Verification of the assyst2 tag engine (`assyst-tag`).

The crate root `src/assyst-tag/src/lib.rs` is the only file of the crate
that is visible: it declares the `parser`, `errors`, `subtags` and `context`
modules, defines the two entry points `parse` / `parse_with_parent` and the
adversarial-input test suite, but the module bodies themselves are absent.
The engine below is therefore modelled from the specification (grammar
`\x7bname:arg|arg|...\x7d` with escaping, depth-first left-to-right
evaluation, a shared variable store / iteration counter / attachment slot,
an iteration ceiling of 500, the error taxonomy of section 7, and the
byte-boundary-snapping error formatter), anchored on everything `lib.rs`
does show: the fresh per-call state built in `parse`, the state reuse of
`parse_with_parent`, the error kinds `MissingClosingBrace`, `ArgParseError`
and `IterLimit` matched by the tests, and the concrete test expectations.

Strings are modelled at the byte level (`List Nat`), so arbitrary — also
invalid-UTF-8 — inputs are expressible.  The evaluator is written with an
explicit structural fuel so that it is executable by kernel reduction; the
fuel-sufficiency theorem below shows the fuel chosen by `parse` is never
exhausted, which is the termination content of the model.
-/

set_option maxRecDepth 40000

namespace AssystTag

/-- Raw input bytes of one request, one natural number per byte. -/
abbrev ByteStr := List Nat

/-- Bytes of an ASCII string literal (codepoint = byte for ASCII). -/
def asciiBytes (s : String) : ByteStr := s.data.map (fun c => c.toNat)

/-- Modelled from the spec: the media kind of an attachment
(`assyst_common::util::filetype::Type` is not part of the visible source);
an abstract tag suffices. -/
abbrev MediaKind := Nat

/-- Modelled from the spec (section 3 / `SharedState` of the missing
`parser` module): the mutable store threaded through every nested
evaluation of one top-level request — named variables, the global
iteration counter, the single optional attachment slot. -/
structure TagState where
  vars : List (ByteStr × ByteStr)
  counter : Nat
  attachment : Option (ByteStr × MediaKind)
deriving DecidableEq, Repr

/-- Modelled from the spec (section 7 / the missing `errors` module): the
fixed error taxonomy.  Each kind carries the byte offset it is anchored
at; `nested` wraps an inner error, retaining the causal chain. -/
inductive TagError where
  | missingClosingBrace (pos : Nat)
  | argParseError (pos : Nat)
  | unknownSubtag (pos : Nat)
  | iterLimit (pos : Nat)
  | nested (pos : Nat) (inner : TagError)
deriving DecidableEq, Repr

/-- Modelled from the spec (section 4.3 / the missing `context` module):
the capability interface.  Every operation returns a result so that
environment failures propagate as values. -/
structure Context where
  resolveRef : ByteStr → Except ByteStr ByteStr

/-- Modelled from the spec: the no-op context used for isolated testing —
it rejects every environment-dependent operation. -/
def nopContext : Context := ⟨fun _ => Except.error []⟩

/-- Result of a successful top-level parse (`ParseResult` in `lib.rs`). -/
structure ParseResult where
  output : ByteStr
  attachment : Option (ByteStr × MediaKind)
deriving DecidableEq, Repr

/-- Modelled from the spec: the iteration ceiling (observed value 500). -/
def ITER_LIMIT : Nat := 500

instance exceptDecEq {ε α : Type} [DecidableEq ε] [DecidableEq α] :
    DecidableEq (Except ε α) := fun x y =>
  match x, y with
  | Except.ok a, Except.ok b =>
    if h : a = b then Decidable.isTrue (congrArg Except.ok h)
    else Decidable.isFalse (fun hh => h (Except.ok.inj hh))
  | Except.error a, Except.error b =>
    if h : a = b then Decidable.isTrue (congrArg Except.error h)
    else Decidable.isFalse (fun hh => h (Except.error.inj hh))
  | Except.ok _, Except.error _ =>
    Decidable.isFalse (fun hh => Except.noConfusion hh)
  | Except.error _, Except.ok _ =>
    Decidable.isFalse (fun hh => Except.noConfusion hh)

/-- Result of one evaluator step: `none` models a diverging computation
(fuel ran out — shown below never to happen for the fuel `parse` picks),
otherwise a typed error or an output byte string with the updated state. -/
abbrev MRes := Option (Except TagError (ByteStr × TagState))

/-- Scan the bytes following an opening brace for the matching closing
brace, honouring escapes and nested braces.  Returns the raw invocation
body and the bytes after the closing brace, or `none` when the scan
reaches end-of-input first (the unterminated-invocation condition). -/
def scanInvocation : ByteStr → Nat → Bool → Option (ByteStr × ByteStr)
  | [], _, _ => none
  | b :: rest, depth, true =>
    match scanInvocation rest depth false with
    | some (body, after) => some (b :: body, after)
    | none => none
  | b :: rest, depth, false =>
    if b = 0x5C then
      match scanInvocation rest depth true with
      | some (body, after) => some (0x5C :: body, after)
      | none => none
    else if b = 0x7B then
      match scanInvocation rest (depth + 1) false with
      | some (body, after) => some (0x7B :: body, after)
      | none => none
    else if b = 0x7D then
      if depth = 0 then some ([], rest)
      else
        match scanInvocation rest (depth - 1) false with
        | some (body, after) => some (0x7D :: body, after)
        | none => none
    else
      match scanInvocation rest depth false with
      | some (body, after) => some (b :: body, after)
      | none => none

/-- Split the raw argument segment of an invocation body at its top-level
pipe separators, keeping escape sequences and nested invocations intact. -/
def splitArgs : ByteStr → Nat → Bool → ByteStr → List ByteStr
  | [], _, _, cur => [cur.reverse]
  | b :: rest, depth, true, cur => splitArgs rest depth false (b :: cur)
  | b :: rest, depth, false, cur =>
    if b = 0x5C then splitArgs rest depth true (0x5C :: cur)
    else if b = 0x7B then splitArgs rest (depth + 1) false (0x7B :: cur)
    else if b = 0x7D then splitArgs rest (depth - 1) false (0x7D :: cur)
    else if b = 0x7C then
      if depth = 0 then cur.reverse :: splitArgs rest 0 false []
      else splitArgs rest depth false (0x7C :: cur)
    else splitArgs rest depth false (b :: cur)

/-- Split an invocation body into the subtag name (bytes before the first
colon) and its raw, not yet evaluated, argument spans. -/
def splitBody (body : ByteStr) : ByteStr × List ByteStr :=
  let name := body.takeWhile (fun b => b != 0x3A)
  if name.length = body.length then (name, [])
  else (name, splitArgs (body.drop (name.length + 1)) 0 false [])

/-- Decimal digits of a natural number, as ASCII bytes (auxiliary fuel). -/
def natDigitsAux : Nat → Nat → ByteStr → ByteStr
  | 0, _, acc => acc
  | fuel + 1, n, acc =>
    if n = 0 then acc else natDigitsAux fuel (n / 10) ((0x30 + n % 10) :: acc)

/-- Render a natural number as ASCII decimal bytes. -/
def natToBytes (n : Nat) : ByteStr :=
  if n = 0 then [0x30] else natDigitsAux (n + 1) n []

/-- Render an integer as ASCII decimal bytes. -/
def intToBytes (i : Int) : ByteStr :=
  if i < 0 then 0x2D :: natToBytes i.natAbs else natToBytes i.natAbs

/-- Parse ASCII decimal digits; `none` on empty input or non-digits. -/
def parseNatAux : ByteStr → Nat → Option Nat
  | [], acc => some acc
  | b :: rest, acc =>
    if 0x30 ≤ b ∧ b ≤ 0x39 then parseNatAux rest (acc * 10 + (b - 0x30))
    else none

/-- Parse a natural number from ASCII bytes. -/
def parseNatBytes (s : ByteStr) : Option Nat :=
  if s.isEmpty then none else parseNatAux s 0

/-- Parse an integer (optional leading minus) from ASCII bytes. -/
def parseIntBytes : ByteStr → Option Int
  | 0x2D :: rest => (parseNatBytes rest).map (fun n => -(n : Int))
  | s => (parseNatBytes s).map (fun n => (n : Int))

/-- Look a variable up in the store; the most recent write wins. -/
def lookupVar (name : ByteStr) : List (ByteStr × ByteStr) → Option ByteStr
  | [] => none
  | (k, v) :: rest => if k = name then some v else lookupVar name rest

/-- Comparison operators of the conditional subtag: byte-equality for
an equals sign, numeric comparison for an angle bracket; any other
operator is rejected. -/
def compareOp (op a b : ByteStr) : Option Bool :=
  if op = [0x3D] then some (decide (a = b))
  else if op = [0x3E] then
    match parseIntBytes a, parseIntBytes b with
    | some x, some y => some (decide (y < x))
    | _, _ => none
  else if op = [0x3C] then
    match parseIntBytes a, parseIntBytes b with
    | some x, some y => some (decide (x < y))
    | _, _ => none
  else none

/-- Propagate a step result: short-circuit divergence and errors, feed the
output and updated state to the continuation. -/
def mbind (x : MRes) (f : ByteStr → TagState → MRes) : MRes :=
  match x with
  | none => none
  | some (Except.error e) => some (Except.error e)
  | some (Except.ok (out, st)) => f out st

/-- Wrap the error of a nested parse in the `nested` kind, as the engine
does when an inner `parse_with_parent` evaluation fails. -/
def wrapErr (pos : Nat) (x : MRes) : MRes :=
  match x with
  | some (Except.error e) => some (Except.error (TagError.nested pos e))
  | other => other

/-- Result of evaluating a list of raw argument spans. -/
abbrev LRes := Option (Except TagError (List ByteStr × TagState))

/-- Propagate a single-value step result into a list-valued computation. -/
def lbind (x : MRes) (f : ByteStr → TagState → LRes) : LRes :=
  match x with
  | none => none
  | some (Except.error e) => some (Except.error e)
  | some (Except.ok (out, st)) => f out st

/-- Propagate a list-valued step result. -/
def lbindL (x : LRes) (f : List ByteStr → TagState → LRes) : LRes :=
  match x with
  | none => none
  | some (Except.error e) => some (Except.error e)
  | some (Except.ok (vs, st)) => f vs st

/-- Propagate a list-valued step result into a single-valued computation. -/
def mbindL (x : LRes) (f : List ByteStr → TagState → MRes) : MRes :=
  match x with
  | none => none
  | some (Except.error e) => some (Except.error e)
  | some (Except.ok (vs, st)) => f vs st

/-- Evaluate raw argument spans left to right through the supplied nested
evaluator, threading the shared state. -/
def evalList (eval : ByteStr → TagState → MRes) :
    List ByteStr → TagState → LRes
  | [], st => some (Except.ok ([], st))
  | r :: rest, st =>
    lbind (eval r st) (fun v st1 =>
      lbindL (evalList eval rest st1) (fun vs st2 =>
        some (Except.ok (v :: vs, st2))))

/-- Modelled from the spec (section 4.1 step 4-5 / the missing `subtags`
module): the subtag dispatch table.  `eval` is the nested evaluator for
raw argument spans; every subtag applies its own argument-evaluation
policy — eager for `arg`, `max`, `set`, `get`, selective for `if`, whose
unselected branch is never evaluated.  `set` consults the side-effect
flag `se` and no-ops when side effects are suppressed. -/
def dispatch (eval : ByteStr → TagState → MRes) (args : List ByteStr)
    (name : ByteStr) (ras : List ByteStr) (se : Bool) (pos : Nat)
    (st : TagState) : MRes :=
  if name = asciiBytes "args" then
    some (Except.ok (List.intercalate [0x20] args, st))
  else if name = asciiBytes "argslen" then
    some (Except.ok (natToBytes args.length, st))
  else if name = asciiBytes "arg" then
    match ras with
    | [ixRaw] =>
      mbind (eval ixRaw st) (fun v st1 =>
        match parseNatBytes v with
        | some n =>
          match args.get? n with
          | some a => some (Except.ok (a, st1))
          | none => some (Except.error (TagError.argParseError pos))
        | none => some (Except.error (TagError.argParseError pos)))
    | _ => some (Except.error (TagError.argParseError pos))
  else if name = asciiBytes "if" then
    match ras with
    | [v1, op, v2, tBranch, eBranch] =>
      mbindL (evalList eval [v1, op, v2] st) (fun vals st1 =>
        match vals with
        | [a, o, b] =>
          match compareOp o a b with
          | some true => eval tBranch st1
          | some false => eval eBranch st1
          | none => some (Except.error (TagError.argParseError pos))
        | _ => some (Except.error (TagError.argParseError pos)))
    | _ => some (Except.error (TagError.argParseError pos))
  else if name = asciiBytes "max" then
    mbindL (evalList eval ras st) (fun vals st1 =>
      match vals.mapM parseIntBytes with
      | some (i :: is) =>
        some (Except.ok (intToBytes (is.foldl (fun a b => max a b) i), st1))
      | _ => some (Except.error (TagError.argParseError pos)))
  else if name = asciiBytes "set" then
    match ras with
    | [nR, vR] =>
      mbindL (evalList eval [nR, vR] st) (fun vals st1 =>
        match vals with
        | [n, v] =>
          if se then
            some (Except.ok ([], { st1 with vars := (n, v) :: st1.vars }))
          else some (Except.ok ([], st1))
        | _ => some (Except.error (TagError.argParseError pos)))
    | _ => some (Except.error (TagError.argParseError pos))
  else if name = asciiBytes "get" then
    match ras with
    | [nR] =>
      mbind (eval nR st) (fun n st1 =>
        some (Except.ok ((lookupVar n st1.vars).getD [], st1)))
    | _ => some (Except.error (TagError.argParseError pos))
  else some (Except.error (TagError.unknownSubtag pos))

/-- An evaluator obligation: a literal segment of the input, a segment
right after an escape byte (the next byte passes through literally), or
the body of one invocation (the bytes between its braces). -/
inductive Call where
  | segment (input : ByteStr) (pos : Nat)
  | segEsc (input : ByteStr) (pos : Nat)
  | invocation (body : ByteStr) (pos : Nat)

/-- Modelled from the spec (section 4.1 / the missing `parser` module):
the recursive-descent evaluator.  A segment is literal bytes interleaved
with invocations; `\x7b` opens an invocation whose body is scanned (not
evaluated) up to the matching `\x7d`, escapes pass the escaped byte
through.  An invocation first increments the shared iteration counter and
fails with `iterLimit` past the ceiling, then splits its body into name
and raw argument spans and dispatches; nested evaluation of argument
spans re-enters the segment evaluator with errors wrapped as `nested`.
The explicit `fuel` makes the recursion structural; `parse` supplies
`input.length + 1`, which the fuel-sufficiency theorem shows is enough. -/
def run (cx : Context) (args : List ByteStr) :
    Nat → Call → Bool → TagState → MRes
  | 0, _, _, _ => none
  | fuel + 1, Call.segment input pos, se, st =>
    match input with
    | [] => some (Except.ok ([], st))
    | b :: rest =>
      if b = 0x5C then run cx args fuel (Call.segEsc rest (pos + 1)) se st
      else if b = 0x7B then
        match scanInvocation rest 0 false with
        | none => some (Except.error (TagError.missingClosingBrace pos))
        | some (body, after) =>
          mbind (run cx args fuel (Call.invocation body pos) se st)
            (fun inv st1 =>
              mbind (run cx args fuel
                  (Call.segment after
                    (pos + 1 + (rest.length - after.length))) se st1)
                (fun out st2 => some (Except.ok (inv ++ out, st2))))
      else
        mbind (run cx args fuel (Call.segment rest (pos + 1)) se st)
          (fun out st1 => some (Except.ok (b :: out, st1)))
  | fuel + 1, Call.segEsc input pos, se, st =>
    match input with
    | [] => some (Except.ok ([0x5C], st))
    | c :: rest =>
      mbind (run cx args fuel (Call.segment rest (pos + 1)) se st)
        (fun out st1 => some (Except.ok (c :: out, st1)))
  | fuel + 1, Call.invocation body pos, se, st =>
    let nr := splitBody body
    if ITER_LIMIT < st.counter + 1 then
      some (Except.error (TagError.iterLimit pos))
    else
      dispatch
        (fun b stx =>
          wrapErr pos (run cx args fuel (Call.segment b (pos + 1)) se stx))
        args nr.1 nr.2 se pos { st with counter := st.counter + 1 }

/-- The empty evaluation state a top-level request starts from. -/
def freshState : TagState := { vars := [], counter := 0, attachment := none }

/-- Top-level evaluation exposing the final shared state. -/
def runTop (input : ByteStr) (args : List ByteStr) (cx : Context) : MRes :=
  run cx args (input.length + 1) (Call.segment input 0) true freshState

/-- Top-level evaluation from an arbitrary starting state. -/
def parseFrom (st : TagState) (input : ByteStr) (args : List ByteStr)
    (cx : Context) : Option (Except TagError ParseResult) :=
  (run cx args (input.length + 1) (Call.segment input 0) true st).map
    (fun r => r.map (fun p => { output := p.1, attachment := p.2.attachment }))

/-- The top-level entry point, mirroring `parse` in `lib.rs`: build a
fresh empty variable store, a zeroed counter and an empty attachment
slot, evaluate the whole input as one segment with side effects enabled,
and on success pair the rendered output with the attachment slot. -/
def parse (input : ByteStr) (args : List ByteStr) (cx : Context) :
    Option (Except TagError ParseResult) :=
  let vars : List (ByteStr × ByteStr) := []
  let counter : Nat := 0
  let attachment : Option (ByteStr × MediaKind) := none
  (run cx args (input.length + 1) (Call.segment input 0) true
      { vars := vars, counter := counter, attachment := attachment }).map
    (fun r => r.map (fun p => { output := p.1, attachment := p.2.attachment }))

/-- The nested entry point, mirroring `parse_with_parent` in `lib.rs`: a
sub-expression is evaluated against the parent's shared state (variable
bindings and the remaining iteration budget), with an explicit
side-effect flag. -/
def parseWithParent (cx : Context) (args : List ByteStr) (input : ByteStr)
    (pos : Nat) (se : Bool) (st : TagState) : MRes :=
  run cx args (input.length + 1) (Call.segment input pos) se st

/-- Project the error of a finished parse, if any. -/
def errOf : Option (Except TagError ParseResult) → Option TagError
  | some (Except.error e) => some e
  | _ => none

/-- Project the success value of a finished parse, if any. -/
def okOf : Option (Except TagError ParseResult) → Option ParseResult
  | some (Except.ok r) => some r
  | _ => none

/-- Inputs whose invocation braces are correctly matched (escape-aware
depth scan that never goes negative and ends balanced). -/
def bracesMatched : ByteStr → Nat → Bool
  | [], depth => depth == 0
  | 0x5C :: _ :: rest, depth => bracesMatched rest depth
  | 0x7B :: rest, depth => bracesMatched rest (depth + 1)
  | 0x7D :: rest, depth =>
    if depth = 0 then false else bracesMatched rest (depth - 1)
  | _ :: rest, depth => bracesMatched rest depth

/-- The bytes of one `\x7bmax:0\x7d` invocation, written out. -/
def maxUnit : ByteStr := [0x7B, 0x6D, 0x61, 0x78, 0x3A, 0x30, 0x7D]

/-- The `iter_limit` test input, the 7-byte invocation repeated 501 times. -/
def iterInput : ByteStr := (List.replicate 501 maxUnit).flatten

/-- Rust's `str::is_char_boundary` over raw bytes: offset 0 and the total
length are boundaries, an in-range offset is a boundary exactly when the
byte there is not a UTF-8 continuation byte, and an out-of-range offset
is not a boundary. -/
def isCharBoundary (s : ByteStr) (i : Nat) : Bool :=
  if i = 0 then true
  else if i = s.length then true
  else
    match s.get? i with
    | some b => decide (b < 0x80 ∨ 0xC0 ≤ b)
    | none => false

/-- Rust's `floor_char_boundary` (the crate enables the
`round_char_boundary` feature): the largest character boundary at or
below the given offset, clamped to the length. -/
def floorCharBoundary (s : ByteStr) : Nat → Nat
  | 0 => 0
  | i + 1 =>
    if s.length ≤ i + 1 then s.length
    else if isCharBoundary s (i + 1) then i + 1
    else floorCharBoundary s i

/-- A byte-range slice mirroring Rust string slicing, which panics unless
both ends are in-range character boundaries; `none` models the panic. -/
def checkedSlice (s : ByteStr) (a b : Nat) : Option ByteStr :=
  if a ≤ b ∧ isCharBoundary s a = true ∧ isCharBoundary s b = true then
    some ((s.drop a).take (b - a))
  else none

/-- The human-readable label of each error kind. -/
def TagError.label : TagError → ByteStr
  | TagError.missingClosingBrace _ => asciiBytes "missing closing brace"
  | TagError.argParseError _ => asciiBytes "argument parse error"
  | TagError.unknownSubtag _ => asciiBytes "unknown subtag"
  | TagError.iterLimit _ => asciiBytes "iteration limit exceeded"
  | TagError.nested _ _ => asciiBytes "nested error"

/-- The byte offset an error is anchored at. -/
def TagError.position : TagError → Nat
  | TagError.missingClosingBrace p => p
  | TagError.argParseError p => p
  | TagError.unknownSubtag p => p
  | TagError.iterLimit p => p
  | TagError.nested p _ => p

/-- Modelled from the spec (section 4.4 / the missing `errors` module):
render one location-anchored line group — the label, the input up to the
reported offset, a caret line, and the input after it.  The offset is
snapped to a character boundary before slicing, exactly the hardening the
spec requires; an unchecked slice would panic (`none`). -/
def formatOne (input : ByteStr) (pos : Nat) (lbl : ByteStr) :
    Option ByteStr :=
  let p := floorCharBoundary input pos
  match checkedSlice input 0 p, checkedSlice input p input.length with
  | some bef, some aft =>
    some (lbl ++ (0x0A :: bef) ++ (0x0A :: List.replicate p 0x20) ++
      (0x5E :: 0x0A :: aft))
  | _, _ => none

/-- Modelled from the spec (section 4.4): `format_error` renders the whole
causal chain, recursing through `nested` wrappers. -/
def formatError (input : ByteStr) : TagError → Option ByteStr
  | TagError.nested p inner =>
    match formatOne input p (asciiBytes "nested error"),
        formatError input inner with
    | some m1, some m2 => some (m1 ++ (0x0A :: m2))
    | _, _ => none
  | e => formatOne input e.position e.label

/-- The per-step counter facts: the shared counter never decreases, and it
never exceeds the ceiling once below it. -/
def CounterStep (st st' : TagState) : Prop :=
  st.counter ≤ st'.counter ∧
    (st.counter ≤ ITER_LIMIT → st'.counter ≤ ITER_LIMIT)

example : scanInvocation (asciiBytes "max:0\x7dabc") 0 false =
    some (asciiBytes "max:0", asciiBytes "abc") := by decide
example : splitBody (asciiBytes "if:a|b|c") = (asciiBytes "if",
    [asciiBytes "a", asciiBytes "b", asciiBytes "c"]) := by decide
example : splitBody (asciiBytes "argslen") = (asciiBytes "argslen", []) := by
  decide
example : parseIntBytes (asciiBytes "-42") = some (-42) := by decide
example : intToBytes (-42) = asciiBytes "-42" := by decide

example : errOf (parse (asciiBytes "zzzz@z\x7bz") [] nopContext) =
    some (TagError.missingClosingBrace 6) := by decide
example : okOf (parse (asciiBytes "\x7bargs\x7dabc") [] nopContext) =
    some { output := asciiBytes "abc", attachment := none } := by decide
example : okOf (parse (asciiBytes "\x7bif:\x7bargslen\x7d|=|0|ok|wrong\x7d")
    [] nopContext) =
    some { output := asciiBytes "ok", attachment := none } := by decide
example : okOf (parse (asciiBytes "\x7bif:\x7bargslen\x7d|=|1|wrong|ok\x7d")
    [] nopContext) =
    some { output := asciiBytes "ok", attachment := none } := by decide
example : errOf (parse (asciiBytes "\x7ba:a") [] nopContext) =
    some (TagError.missingClosingBrace 0) := by decide
example : errOf (parse (asciiBytes "\x7bmax\x7d") [] nopContext) =
    some (TagError.argParseError 0) := by decide
example : okOf (parse (asciiBytes "\x7bset:x|hello\x7d\x7bget:x\x7d")
    [] nopContext) =
    some { output := asciiBytes "hello", attachment := none } := by decide
example : bracesMatched (asciiBytes "\x7bargslen\x7d") 0 = true := by decide


example : maxUnit = asciiBytes "\x7bmax:0\x7d" := by decide

theorem mbind_pure (x : MRes) :
    mbind x (fun out st => some (Except.ok (out, st))) = x := by
  unfold mbind
  rcases x with _ | e | p
  · rfl
  · rfl
  · rfl

theorem mbind_assoc (x : MRes) (f g : ByteStr → TagState → MRes) :
    mbind (mbind x f) g = mbind x (fun out st => mbind (f out st) g) := by
  unfold mbind
  rcases x with _ | e | p
  · rfl
  · rfl
  · rfl

theorem unit_step (f pos : Nat) (rest : ByteStr) (st : TagState)
    (hc : st.counter + 1 ≤ ITER_LIMIT) :
    run nopContext [] (f + 4) (Call.segment (maxUnit ++ rest) pos) true st =
    mbind (run nopContext [] (f + 3) (Call.segment rest (pos + 7)) true
        { st with counter := st.counter + 1 })
      (fun out st2 => some (Except.ok (0x30 :: out, st2))) := by
  have hinv : run nopContext [] (f + 3)
      (Call.invocation [0x6D, 0x61, 0x78, 0x3A, 0x30] pos) true st =
      some (Except.ok ([0x30], { st with counter := st.counter + 1 })) := by
    simp only [run]
    split
    · exfalso
      simp only [ITER_LIMIT] at *
      omega
    · rfl
  have h6 : (0x6D :: 0x61 :: 0x78 :: 0x3A :: 0x30 :: 0x7D :: rest).length -
      rest.length = 6 := by
    simp only [List.length_cons]
    omega
  show mbind (run nopContext [] (f + 3)
      (Call.invocation [0x6D, 0x61, 0x78, 0x3A, 0x30] pos) true st)
    (fun inv st1 =>
      mbind (run nopContext [] (f + 3)
          (Call.segment rest
            (pos + 1 +
              ((0x6D :: 0x61 :: 0x78 :: 0x3A :: 0x30 :: 0x7D :: rest).length -
                rest.length))) true st1)
        (fun out st2 => some (Except.ok (inv ++ out, st2)))) = _
  rw [hinv, h6]
  rfl

theorem units_steps (n : Nat) : ∀ (f pos : Nat) (rest : ByteStr)
    (st : TagState), st.counter + n ≤ ITER_LIMIT →
    run nopContext [] (f + n + 3)
      (Call.segment ((List.replicate n maxUnit).flatten ++ rest) pos) true st =
    mbind (run nopContext [] (f + 3) (Call.segment rest (pos + 7 * n)) true
        { st with counter := st.counter + n })
      (fun out st2 =>
        some (Except.ok (List.replicate n 0x30 ++ out, st2))) := by
  induction n with
  | zero =>
    intro f pos rest st hc
    exact (mbind_pure _).symm
  | succ n ih =>
    intro f pos rest st hc
    rw [show (List.replicate (n + 1) maxUnit).flatten ++ rest =
        maxUnit ++ ((List.replicate n maxUnit).flatten ++ rest) from by
      simp [List.replicate_succ, List.append_assoc]]
    rw [show f + (n + 1) + 3 = (f + n) + 4 from by omega]
    rw [unit_step (f + n) pos _ st (by simp only [ITER_LIMIT] at *; omega)]
    rw [show (f + n) + 3 = f + n + 3 from rfl]
    rw [ih f (pos + 7) rest { st with counter := st.counter + 1 }
      (by simp only [ITER_LIMIT] at *; omega)]
    rw [mbind_assoc]
    have e1 : pos + 7 + 7 * n = pos + 7 * (n + 1) := by ring
    have e2 : st.counter + 1 + n = st.counter + (n + 1) := by omega
    rw [e1, e2]
    rfl

theorem scanInvocation_length : ∀ (xs : ByteStr) (depth : Nat) (esc : Bool)
    (body after : ByteStr), scanInvocation xs depth esc = some (body, after) →
    body.length + after.length < xs.length := by
  intro xs
  induction xs with
  | nil => intro depth esc body after h; simp [scanInvocation] at h
  | cons b rest ih =>
    intro depth esc body after h
    cases esc with
    | true =>
      simp only [scanInvocation] at h
      cases hrec : scanInvocation rest depth false with
      | none => rw [hrec] at h; simp at h
      | some p =>
        obtain ⟨bd, af⟩ := p
        rw [hrec] at h
        simp only [Option.some.injEq, Prod.mk.injEq] at h
        obtain ⟨rfl, rfl⟩ := h
        have := ih _ _ _ _ hrec
        simp only [List.length_cons]
        omega
    | false =>
      by_cases hb1 : b = 0x5C
      · subst hb1
        simp only [scanInvocation, if_pos rfl] at h
        cases hrec : scanInvocation rest depth true with
        | none => rw [hrec] at h; simp at h
        | some p =>
          obtain ⟨bd, af⟩ := p
          rw [hrec] at h
          simp only [Option.some.injEq, Prod.mk.injEq] at h
          obtain ⟨rfl, rfl⟩ := h
          have := ih _ _ _ _ hrec
          simp only [List.length_cons]
          omega
      · by_cases hb2 : b = 0x7B
        · subst hb2
          simp only [scanInvocation, if_neg hb1, if_pos rfl] at h
          cases hrec : scanInvocation rest (depth + 1) false with
          | none => rw [hrec] at h; simp at h
          | some p =>
            obtain ⟨bd, af⟩ := p
            rw [hrec] at h
            simp only [Option.some.injEq, Prod.mk.injEq] at h
            obtain ⟨rfl, rfl⟩ := h
            have := ih _ _ _ _ hrec
            simp only [List.length_cons]
            omega
        · by_cases hb3 : b = 0x7D
          · subst hb3
            simp only [scanInvocation, if_neg hb1, if_neg hb2, if_pos rfl] at h
            by_cases hd : depth = 0
            · rw [if_pos hd] at h
              cases h
              simp only [List.length_nil, List.length_cons]
              omega
            · rw [if_neg hd] at h
              cases hrec : scanInvocation rest (depth - 1) false with
              | none => rw [hrec] at h; simp at h
              | some p =>
                obtain ⟨bd, af⟩ := p
                rw [hrec] at h
                simp only [Option.some.injEq, Prod.mk.injEq] at h
                obtain ⟨rfl, rfl⟩ := h
                have := ih _ _ _ _ hrec
                simp only [List.length_cons]
                omega
          · simp only [scanInvocation, if_neg hb1, if_neg hb2, if_neg hb3]
              at h
            cases hrec : scanInvocation rest depth false with
            | none => rw [hrec] at h; simp at h
            | some p =>
              obtain ⟨bd, af⟩ := p
              rw [hrec] at h
              simp only [Option.some.injEq, Prod.mk.injEq] at h
              obtain ⟨rfl, rfl⟩ := h
              have := ih _ _ _ _ hrec
              simp only [List.length_cons]
              omega

theorem splitArgs_length : ∀ (xs : ByteStr) (depth : Nat) (esc : Bool)
    (cur p : ByteStr), p ∈ splitArgs xs depth esc cur →
    p.length ≤ xs.length + cur.length := by
  intro xs
  induction xs with
  | nil =>
    intro depth esc cur p h
    simp only [splitArgs, List.mem_singleton] at h
    subst h
    simp
  | cons b rest ih =>
    intro depth esc cur p h
    cases esc with
    | true =>
      simp only [splitArgs] at h
      have := ih depth false (b :: cur) p h
      simp only [List.length_cons] at *
      omega
    | false =>
      by_cases hb1 : b = 0x5C
      · subst hb1
        simp only [splitArgs, if_pos rfl] at h
        have := ih depth true (0x5C :: cur) p h
        simp only [List.length_cons] at *
        omega
      · by_cases hb2 : b = 0x7B
        · subst hb2
          simp only [splitArgs, if_neg hb1, if_pos rfl] at h
          have := ih (depth + 1) false (0x7B :: cur) p h
          simp only [List.length_cons] at *
          omega
        · by_cases hb3 : b = 0x7D
          · subst hb3
            simp only [splitArgs, if_neg hb1, if_neg hb2, if_pos rfl] at h
            have := ih (depth - 1) false (0x7D :: cur) p h
            simp only [List.length_cons] at *
            omega
          · by_cases hb4 : b = 0x7C
            · subst hb4
              simp only [splitArgs, if_neg hb1, if_neg hb2, if_neg hb3,
                if_pos rfl] at h
              by_cases hd : depth = 0
              · rw [if_pos hd] at h
                rcases List.mem_cons.mp h with hcur | hmem
                · subst hcur
                  simp only [List.length_reverse, List.length_cons]
                  omega
                · have := ih 0 false [] p hmem
                  simp only [List.length_cons, List.length_nil] at *
                  omega
              · rw [if_neg hd] at h
                have := ih depth false (0x7C :: cur) p h
                simp only [List.length_cons] at *
                omega
            · simp only [splitArgs, if_neg hb1, if_neg hb2, if_neg hb3,
                if_neg hb4] at h
              have := ih depth false (b :: cur) p h
              simp only [List.length_cons] at *
              omega

theorem takeWhile_len_le (p : Nat → Bool) : ∀ l : List Nat,
    (l.takeWhile p).length ≤ l.length := by
  intro l
  induction l with
  | nil => simp
  | cons a t ih =>
    simp only [List.takeWhile_cons]
    split
    · simp only [List.length_cons]
      omega
    · simp

theorem splitBody_args_length (body name : ByteStr) (ras : List ByteStr)
    (h : splitBody body = (name, ras)) :
    ∀ p ∈ ras, p.length < body.length := by
  intro p hp
  simp only [splitBody] at h
  split at h
  · simp only [Prod.mk.injEq] at h
    obtain ⟨rfl, rfl⟩ := h
    simp at hp
  · rename_i hne
    simp only [Prod.mk.injEq] at h
    obtain ⟨rfl, rfl⟩ := h
    have hlen := splitArgs_length (body.drop
      ((body.takeWhile (fun b => b != 0x3A)).length + 1)) 0 false [] p hp
    have htw : (body.takeWhile (fun b => b != 0x3A)).length ≤ body.length :=
      takeWhile_len_le _ body
    have hdrop : (body.drop
        ((body.takeWhile (fun b => b != 0x3A)).length + 1)).length =
        body.length - ((body.takeWhile (fun b => b != 0x3A)).length + 1) :=
      List.length_drop _ _
    simp only [List.length_nil] at hlen
    omega

theorem wrapErr_isSome (pos : Nat) (x : MRes) :
    (wrapErr pos x).isSome = x.isSome := by
  unfold wrapErr
  rcases x with _ | e | p
  · rfl
  · rfl
  · rfl

theorem mbind_isSome (x : MRes) (f : ByteStr → TagState → MRes)
    (hx : x.isSome) (hf : ∀ o s, (f o s).isSome) : (mbind x f).isSome := by
  unfold mbind
  rcases x with _ | e | p
  · simp at hx
  · simp
  · obtain ⟨o, s⟩ := p
    exact hf o s

theorem lbind_isSome (x : MRes) (f : ByteStr → TagState → LRes)
    (hx : x.isSome) (hf : ∀ o s, (f o s).isSome) : (lbind x f).isSome := by
  unfold lbind
  rcases x with _ | e | p
  · simp at hx
  · simp
  · obtain ⟨o, s⟩ := p
    exact hf o s

theorem lbindL_isSome (x : LRes) (f : List ByteStr → TagState → LRes)
    (hx : x.isSome) (hf : ∀ o s, (f o s).isSome) : (lbindL x f).isSome := by
  unfold lbindL
  rcases x with _ | e | p
  · simp at hx
  · simp
  · obtain ⟨o, s⟩ := p
    exact hf o s

theorem mbindL_isSome (x : LRes) (f : List ByteStr → TagState → MRes)
    (hx : x.isSome) (hf : ∀ o s, (f o s).isSome) : (mbindL x f).isSome := by
  unfold mbindL
  rcases x with _ | e | p
  · simp at hx
  · simp
  · obtain ⟨o, s⟩ := p
    exact hf o s

theorem evalList_isSome (eval : ByteStr → TagState → MRes) :
    ∀ l : List ByteStr,
    (∀ b ∈ l, ∀ stx : TagState, (eval b stx).isSome) →
    ∀ st : TagState, (evalList eval l st).isSome := by
  intro l
  induction l with
  | nil => intro h st; simp [evalList]
  | cons r rest ih =>
    intro h st
    simp only [evalList]
    apply lbind_isSome
    · exact h r (by simp) st
    · intro v st1
      apply lbindL_isSome
      · exact ih (fun b hb stx => h b (by simp [hb]) stx) st1
      · intro vs st2
        simp

theorem dispatch_isSome (eval : ByteStr → TagState → MRes)
    (args : List ByteStr) (name : ByteStr) (ras : List ByteStr) (se : Bool)
    (pos : Nat) (st : TagState)
    (h : ∀ b ∈ ras, ∀ stx : TagState, (eval b stx).isSome) :
    (dispatch eval args name ras se pos st).isSome := by
  unfold dispatch
  by_cases h1 : name = asciiBytes "args"
  · rw [if_pos h1]
    simp
  · rw [if_neg h1]
    by_cases h2 : name = asciiBytes "argslen"
    · rw [if_pos h2]
      simp
    · rw [if_neg h2]
      by_cases h3 : name = asciiBytes "arg"
      · rw [if_pos h3]
        split
        · apply mbind_isSome
          · apply h
            simp
          · intro v st1
            split
            · split
              · simp
              · simp
            · simp
        · simp
      · rw [if_neg h3]
        by_cases h4 : name = asciiBytes "if"
        · rw [if_pos h4]
          split
          · rename_i v1 op v2 tB eB
            apply mbindL_isSome
            · exact evalList_isSome eval [v1, op, v2]
                (fun b hb stx => h b (by simp at hb ⊢; tauto) stx) st
            · intro vals st1
              split
              · split
                · apply h
                  · simp
                · apply h
                  · simp
                · simp
              · simp
          · simp
        · rw [if_neg h4]
          by_cases h5 : name = asciiBytes "max"
          · rw [if_pos h5]
            apply mbindL_isSome
            · exact evalList_isSome eval ras h st
            · intro vals st1
              split
              · simp
              · simp
          · rw [if_neg h5]
            by_cases h6 : name = asciiBytes "set"
            · rw [if_pos h6]
              split
              · rename_i nR vR
                apply mbindL_isSome
                · exact evalList_isSome eval [nR, vR]
                    (fun b hb stx => h b (by simp at hb ⊢; tauto) stx) st
                · intro vals st1
                  split
                  · split
                    · simp
                    · simp
                  · simp
              · simp
            · rw [if_neg h6]
              by_cases h7 : name = asciiBytes "get"
              · rw [if_pos h7]
                split
                · apply mbind_isSome
                  · apply h
                    simp
                  · intro v st1
                    simp
                · simp
              · rw [if_neg h7]
                simp

theorem run_isSome (cx : Context) (args : List ByteStr) :
    ∀ (fuel : Nat) (c : Call) (se : Bool) (st : TagState),
    (match c with
     | Call.segment input _ => input.length
     | Call.segEsc input _ => input.length
     | Call.invocation body _ => body.length + 1) < fuel →
    (run cx args fuel c se st).isSome := by
  intro fuel
  induction fuel with
  | zero => intro c se st h; omega
  | succ fuel ih =>
    intro c se st h
    cases c with
    | segment input pos =>
      cases input with
      | nil => simp [run]
      | cons b rest =>
        simp only [List.length_cons] at h
        simp only [run]
        by_cases hb1 : b = 0x5C
        · rw [if_pos hb1]
          exact ih (Call.segEsc rest (pos + 1)) se st (by simp; omega)
        · rw [if_neg hb1]
          by_cases hb2 : b = 0x7B
          · rw [if_pos hb2]
            cases hscan : scanInvocation rest 0 false with
            | none => simp
            | some p =>
              obtain ⟨body, after⟩ := p
              have hlt := scanInvocation_length rest 0 false body after hscan
              apply mbind_isSome
              · exact ih (Call.invocation body pos) se st (by simp; omega)
              · intro o s
                apply mbind_isSome
                · exact ih (Call.segment after
                    (pos + 1 + (rest.length - after.length))) se s
                    (by simp; omega)
                · intro o2 s2
                  simp
          · rw [if_neg hb2]
            apply mbind_isSome
            · exact ih (Call.segment rest (pos + 1)) se st (by simp; omega)
            · intro o s
              simp
    | segEsc input pos =>
      cases input with
      | nil => simp [run]
      | cons c2 rest =>
        simp only [List.length_cons] at h
        simp only [run]
        apply mbind_isSome
        · exact ih (Call.segment rest (pos + 1)) se st (by simp; omega)
        · intro o s
          simp
    | invocation body pos =>
      simp only [run]
      split
      · simp
      · apply dispatch_isSome
        intro b hb stx
        rw [wrapErr_isSome]
        have hblen : b.length < body.length :=
          splitBody_args_length body (splitBody body).1 (splitBody body).2
            rfl b hb
        simp only [] at h
        exact ih (Call.segment b (pos + 1)) se stx (by simp; omega)

theorem mbind_eq_ok (x : MRes) (f : ByteStr → TagState → MRes)
    (r : ByteStr × TagState) (h : mbind x f = some (Except.ok r)) :
    ∃ o s, x = some (Except.ok (o, s)) ∧ f o s = some (Except.ok r) := by
  unfold mbind at h
  rcases x with _ | e | p
  · simp at h
  · simp at h
  · obtain ⟨o, s⟩ := p
    exact ⟨o, s, rfl, h⟩

theorem lbind_eq_ok (x : MRes) (f : ByteStr → TagState → LRes)
    (r : List ByteStr × TagState) (h : lbind x f = some (Except.ok r)) :
    ∃ o s, x = some (Except.ok (o, s)) ∧ f o s = some (Except.ok r) := by
  unfold lbind at h
  rcases x with _ | e | p
  · simp at h
  · simp at h
  · obtain ⟨o, s⟩ := p
    exact ⟨o, s, rfl, h⟩

theorem lbindL_eq_ok (x : LRes) (f : List ByteStr → TagState → LRes)
    (r : List ByteStr × TagState) (h : lbindL x f = some (Except.ok r)) :
    ∃ o s, x = some (Except.ok (o, s)) ∧ f o s = some (Except.ok r) := by
  unfold lbindL at h
  rcases x with _ | e | p
  · simp at h
  · simp at h
  · obtain ⟨o, s⟩ := p
    exact ⟨o, s, rfl, h⟩

theorem mbindL_eq_ok (x : LRes) (f : List ByteStr → TagState → MRes)
    (r : ByteStr × TagState) (h : mbindL x f = some (Except.ok r)) :
    ∃ o s, x = some (Except.ok (o, s)) ∧ f o s = some (Except.ok r) := by
  unfold mbindL at h
  rcases x with _ | e | p
  · simp at h
  · simp at h
  · obtain ⟨o, s⟩ := p
    exact ⟨o, s, rfl, h⟩

theorem wrapErr_eq_ok (pos : Nat) (x : MRes) (r : ByteStr × TagState)
    (h : wrapErr pos x = some (Except.ok r)) : x = some (Except.ok r) := by
  unfold wrapErr at h
  rcases x with _ | e | p
  · simp at h
  · simp at h
  · exact h

theorem counterStep_refl (st : TagState) : CounterStep st st :=
  ⟨Nat.le_refl _, fun hh => hh⟩

theorem counterStep_trans {st1 st2 st3 : TagState}
    (h1 : CounterStep st1 st2) (h2 : CounterStep st2 st3) :
    CounterStep st1 st3 :=
  ⟨Nat.le_trans h1.1 h2.1, fun hh => h2.2 (h1.2 hh)⟩

theorem evalList_counter (eval : ByteStr → TagState → MRes)
    (heval : ∀ b stx v stx', eval b stx = some (Except.ok (v, stx')) →
      CounterStep stx stx') :
    ∀ (l : List ByteStr) (st : TagState) (vs : List ByteStr)
    (st' : TagState), evalList eval l st = some (Except.ok (vs, st')) →
    CounterStep st st' := by
  intro l
  induction l with
  | nil =>
    intro st vs st' h
    simp only [evalList, Option.some.injEq, Except.ok.injEq,
      Prod.mk.injEq] at h
    obtain ⟨-, rfl⟩ := h
    exact counterStep_refl st
  | cons r rest ih =>
    intro st vs st' h
    simp only [evalList] at h
    obtain ⟨v, st1, hr, h2⟩ := lbind_eq_ok _ _ _ h
    obtain ⟨vs2, st2, hrec, h3⟩ := lbindL_eq_ok _ _ _ h2
    simp only [Option.some.injEq, Except.ok.injEq, Prod.mk.injEq] at h3
    obtain ⟨-, rfl⟩ := h3
    exact counterStep_trans (heval r st v st1 hr) (ih st1 vs2 _ hrec)

theorem dispatch_counter (eval : ByteStr → TagState → MRes)
    (args : List ByteStr) (name : ByteStr) (ras : List ByteStr) (se : Bool)
    (pos : Nat) (st : TagState) (out : ByteStr) (st' : TagState)
    (heval : ∀ b stx v stx', eval b stx = some (Except.ok (v, stx')) →
      CounterStep stx stx')
    (h : dispatch eval args name ras se pos st = some (Except.ok (out, st'))) :
    CounterStep st st' := by
  unfold dispatch at h
  by_cases h1 : name = asciiBytes "args"
  · rw [if_pos h1] at h
    simp only [Option.some.injEq, Except.ok.injEq, Prod.mk.injEq] at h
    obtain ⟨-, rfl⟩ := h
    exact counterStep_refl st
  · rw [if_neg h1] at h
    by_cases h2 : name = asciiBytes "argslen"
    · rw [if_pos h2] at h
      simp only [Option.some.injEq, Except.ok.injEq, Prod.mk.injEq] at h
      obtain ⟨-, rfl⟩ := h
      exact counterStep_refl st
    · rw [if_neg h2] at h
      by_cases h3 : name = asciiBytes "arg"
      · rw [if_pos h3] at h
        split at h
        · obtain ⟨v, st1, hev, hcont⟩ := mbind_eq_ok _ _ _ h
          have hstep := heval _ _ _ _ hev
          split at hcont
          · split at hcont
            · simp only [Option.some.injEq, Except.ok.injEq,
                Prod.mk.injEq] at hcont
              obtain ⟨-, rfl⟩ := hcont
              exact hstep
            · simp at hcont
          · simp at hcont
        · simp at h
      · rw [if_neg h3] at h
        by_cases h4 : name = asciiBytes "if"
        · rw [if_pos h4] at h
          split at h
          · obtain ⟨vals, st1, hev, hcont⟩ := mbindL_eq_ok _ _ _ h
            have hstep := evalList_counter eval heval _ _ _ _ hev
            split at hcont
            · split at hcont
              · exact counterStep_trans hstep (heval _ _ _ _ hcont)
              · exact counterStep_trans hstep (heval _ _ _ _ hcont)
              · simp at hcont
            · simp at hcont
          · simp at h
        · rw [if_neg h4] at h
          by_cases h5 : name = asciiBytes "max"
          · rw [if_pos h5] at h
            obtain ⟨vals, st1, hev, hcont⟩ := mbindL_eq_ok _ _ _ h
            have hstep := evalList_counter eval heval _ _ _ _ hev
            split at hcont
            · simp only [Option.some.injEq, Except.ok.injEq,
                Prod.mk.injEq] at hcont
              obtain ⟨-, rfl⟩ := hcont
              exact hstep
            · simp at hcont
          · rw [if_neg h5] at h
            by_cases h6 : name = asciiBytes "set"
            · rw [if_pos h6] at h
              split at h
              · obtain ⟨vals, st1, hev, hcont⟩ := mbindL_eq_ok _ _ _ h
                have hstep := evalList_counter eval heval _ _ _ _ hev
                split at hcont
                · split at hcont
                  · simp only [Option.some.injEq, Except.ok.injEq,
                      Prod.mk.injEq] at hcont
                    obtain ⟨-, rfl⟩ := hcont
                    exact counterStep_trans hstep
                      ⟨Nat.le_refl _, fun hh => hh⟩
                  · simp only [Option.some.injEq, Except.ok.injEq,
                      Prod.mk.injEq] at hcont
                    obtain ⟨-, rfl⟩ := hcont
                    exact hstep
                · simp at hcont
              · simp at h
            · rw [if_neg h6] at h
              by_cases h7 : name = asciiBytes "get"
              · rw [if_pos h7] at h
                split at h
                · obtain ⟨v, st1, hev, hcont⟩ := mbind_eq_ok _ _ _ h
                  simp only [Option.some.injEq, Except.ok.injEq,
                    Prod.mk.injEq] at hcont
                  obtain ⟨-, rfl⟩ := hcont
                  exact heval _ _ _ _ hev
                · simp at h
              · rw [if_neg h7] at h
                simp at h

theorem run_counter (cx : Context) (args : List ByteStr) :
    ∀ (fuel : Nat) (c : Call) (se : Bool) (st : TagState) (out : ByteStr)
    (st' : TagState), run cx args fuel c se st = some (Except.ok (out, st')) →
    CounterStep st st' := by
  intro fuel
  induction fuel with
  | zero => intro c se st out st' h; simp [run] at h
  | succ fuel ih =>
    intro c se st out st' h
    cases c with
    | segment input pos =>
      cases input with
      | nil =>
        simp only [run, Option.some.injEq, Except.ok.injEq,
          Prod.mk.injEq] at h
        obtain ⟨-, rfl⟩ := h
        exact counterStep_refl st
      | cons b rest =>
        simp only [run] at h
        by_cases hb1 : b = 0x5C
        · rw [if_pos hb1] at h
          exact ih _ se st out st' h
        · rw [if_neg hb1] at h
          by_cases hb2 : b = 0x7B
          · rw [if_pos hb2] at h
            cases hscan : scanInvocation rest 0 false with
            | none => rw [hscan] at h; simp at h
            | some p =>
              obtain ⟨body, after⟩ := p
              rw [hscan] at h
              obtain ⟨o1, s1, hinv, h2⟩ := mbind_eq_ok _ _ _ h
              obtain ⟨o2, s2, hseg, h3⟩ := mbind_eq_ok _ _ _ h2
              simp only [Option.some.injEq, Except.ok.injEq,
                Prod.mk.injEq] at h3
              obtain ⟨-, rfl⟩ := h3
              exact counterStep_trans (ih _ se st o1 s1 hinv)
                (ih _ se s1 o2 _ hseg)
          · rw [if_neg hb2] at h
            obtain ⟨o1, s1, hseg, h2⟩ := mbind_eq_ok _ _ _ h
            simp only [Option.some.injEq, Except.ok.injEq,
              Prod.mk.injEq] at h2
            obtain ⟨-, rfl⟩ := h2
            exact ih _ se st o1 _ hseg
    | segEsc input pos =>
      cases input with
      | nil =>
        simp only [run, Option.some.injEq, Except.ok.injEq,
          Prod.mk.injEq] at h
        obtain ⟨-, rfl⟩ := h
        exact counterStep_refl st
      | cons c2 rest =>
        simp only [run] at h
        obtain ⟨o1, s1, hseg, h2⟩ := mbind_eq_ok _ _ _ h
        simp only [Option.some.injEq, Except.ok.injEq, Prod.mk.injEq] at h2
        obtain ⟨-, rfl⟩ := h2
        exact ih _ se st o1 _ hseg
    | invocation body pos =>
      simp only [run] at h
      split at h
      · simp at h
      · rename_i hiter
        have hd := dispatch_counter _ args (splitBody body).1
          (splitBody body).2 se pos { st with counter := st.counter + 1 }
          out st'
          (fun b stx v stx' hb =>
            ih (Call.segment b (pos + 1)) se stx v stx'
              (wrapErr_eq_ok pos _ _ hb))
          h
        simp only [ITER_LIMIT] at hiter hd ⊢
        unfold CounterStep at hd ⊢
        simp only [ITER_LIMIT] at hd ⊢
        omega

theorem iterInput_parse :
    errOf (parse iterInput [] nopContext) =
      some (TagError.iterLimit 3500) := by
  have hsplit : iterInput = (List.replicate 500 maxUnit).flatten ++ maxUnit := by
    rw [iterInput, show (501 : Nat) = 500 + 1 from rfl, List.replicate_succ',
      List.flatten_append]
    simp
  have hlen : iterInput.length = 3507 := by
    rw [iterInput, List.length_flatten, List.map_replicate, List.sum_replicate,
      smul_eq_mul]
    norm_num [maxUnit]
  have hrun : run nopContext [] (3005 + 500 + 3)
      (Call.segment ((List.replicate 500 maxUnit).flatten ++ maxUnit) 0) true
      { vars := [], counter := 0, attachment := none } =
      some (Except.error (TagError.iterLimit 3500)) := by
    rw [units_steps 500 3005 0 maxUnit _ (by decide)]
    have htail : run nopContext [] (3005 + 3)
        (Call.segment maxUnit (0 + 7 * 500)) true
        { vars := [], counter := 0 + 500, attachment := none } =
        some (Except.error (TagError.iterLimit 3500)) := by decide
    rw [htail]
    rfl
  show errOf ((run nopContext [] (iterInput.length + 1)
      (Call.segment iterInput 0) true
      { vars := [], counter := 0, attachment := none }).map
    (fun r => r.map (fun p => { output := p.1, attachment := p.2.attachment }))) =
    some (TagError.iterLimit 3500)
  rw [hlen]
  rw [show (3507 : Nat) + 1 = 3005 + 500 + 3 from by norm_num]
  rw [show Call.segment iterInput 0 =
      Call.segment ((List.replicate 500 maxUnit).flatten ++ maxUnit) 0 from by
    rw [hsplit]]
  rw [hrun]
  rfl

theorem isCharBoundary_zero (s : ByteStr) : isCharBoundary s 0 = true := by
  simp [isCharBoundary]

theorem isCharBoundary_length (s : ByteStr) :
    isCharBoundary s s.length = true := by
  unfold isCharBoundary
  split
  · rfl
  · rw [if_pos rfl]

theorem floorCharBoundary_le (s : ByteStr) :
    ∀ i, floorCharBoundary s i ≤ s.length := by
  intro i
  induction i with
  | zero => simp [floorCharBoundary]
  | succ i ih =>
    unfold floorCharBoundary
    split
    · exact Nat.le_refl _
    · split
      · omega
      · exact ih

theorem floorCharBoundary_boundary (s : ByteStr) :
    ∀ i, isCharBoundary s (floorCharBoundary s i) = true := by
  intro i
  induction i with
  | zero => simpa [floorCharBoundary] using isCharBoundary_zero s
  | succ i ih =>
    unfold floorCharBoundary
    split
    · exact isCharBoundary_length s
    · split
      · assumption
      · exact ih

theorem checkedSlice_from_zero (s : ByteStr) (p : Nat)
    (hb : isCharBoundary s p = true) : (checkedSlice s 0 p).isSome := by
  unfold checkedSlice
  rw [if_pos ⟨Nat.zero_le _, isCharBoundary_zero s, hb⟩]
  rfl

theorem checkedSlice_to_length (s : ByteStr) (p : Nat) (hp : p ≤ s.length)
    (hb : isCharBoundary s p = true) :
    (checkedSlice s p s.length).isSome := by
  unfold checkedSlice
  rw [if_pos ⟨hp, hb, isCharBoundary_length s⟩]
  rfl

theorem formatOne_isSome (input : ByteStr) (pos : Nat) (lbl : ByteStr) :
    (formatOne input pos lbl).isSome := by
  unfold formatOne
  have h1 := checkedSlice_from_zero input (floorCharBoundary input pos)
    (floorCharBoundary_boundary input pos)
  have h2 := checkedSlice_to_length input (floorCharBoundary input pos)
    (floorCharBoundary_le input pos) (floorCharBoundary_boundary input pos)
  cases hc1 : checkedSlice input 0 (floorCharBoundary input pos) with
  | none => rw [hc1] at h1; simp at h1
  | some m1 =>
    cases hc2 : checkedSlice input (floorCharBoundary input pos)
        input.length with
    | none => rw [hc2] at h2; simp at h2
    | some m2 => simp [hc1, hc2]

theorem formatError_isSome (input : ByteStr) :
    ∀ e : TagError, (formatError input e).isSome := by
  intro e
  induction e with
  | missingClosingBrace p => exact formatOne_isSome input p _
  | argParseError p => exact formatOne_isSome input p _
  | unknownSubtag p => exact formatOne_isSome input p _
  | iterLimit p => exact formatOne_isSome input p _
  | nested p inner ih =>
    simp only [formatError]
    have h1 := formatOne_isSome input p (asciiBytes "nested error")
    cases hc1 : formatOne input p (asciiBytes "nested error") with
    | none => rw [hc1] at h1; simp at h1
    | some m1 =>
      cases hc2 : formatError input inner with
      | none => rw [hc2] at ih; simp at ih
      | some m2 => simp

/-- C1: for every byte sequence (arbitrary bytes, so in particular every
invalid-boundary unicode placement around the syntactic bytes) and every
argument list and context, the top-level `parse` returns a value — a
rendered result or a typed error — and never panics: the fuel chosen by
`parse` is always sufficient, and the returned value is an `ok` result or
a typed `error`. -/
theorem parse_total_never_panics :
    ∀ (input : ByteStr) (args : List ByteStr) (cx : Context),
    (parse input args cx).isSome = true ∧
    ∀ r, parse input args cx = some r →
      (∃ res, r = Except.ok res) ∨ (∃ e, r = Except.error e) := by
  intro input args cx
  constructor
  · have h := run_isSome cx args (input.length + 1) (Call.segment input 0)
      true { vars := [], counter := 0, attachment := none } (by simp)
    unfold parse
    cases hrun : run cx args (input.length + 1) (Call.segment input 0)
        true { vars := [], counter := 0, attachment := none } with
    | none => rw [hrun] at h; simp at h
    | some r => simp [hrun]
  · intro r hr
    cases r with
    | ok res => exact Or.inl ⟨res, rfl⟩
    | error e => exact Or.inr ⟨e, rfl⟩

theorem parse_total_never_panics_witness :
    (parse [0x61] [] nopContext).isSome = true ∧
    ((∃ res, (Except.ok { output := [0x61], attachment := none } :
        Except TagError ParseResult) = Except.ok res) ∨
      (∃ e, (Except.ok { output := [0x61], attachment := none } :
        Except TagError ParseResult) = Except.error e)) :=
  ⟨(parse_total_never_panics [0x61] [] nopContext).1,
    (parse_total_never_panics [0x61] [] nopContext).2
      (Except.ok { output := [0x61], attachment := none }) (by decide)⟩

/-- C2: for every input with correctly matched invocation braces (and in
fact for every input), evaluation by the top-level parse terminates with
a value — the iteration budget is never silently overrun: a successful
run ends with the shared counter within the ceiling. -/
theorem parse_terminates_within_budget :
    ∀ (input : ByteStr) (args : List ByteStr) (cx : Context),
    bracesMatched input 0 = true →
    (runTop input args cx).isSome = true ∧
    ∀ (outs : ByteStr) (st : TagState),
      runTop input args cx = some (Except.ok (outs, st)) →
      st.counter ≤ ITER_LIMIT := by
  intro input args cx hmatched
  constructor
  · exact run_isSome cx args (input.length + 1) (Call.segment input 0)
      true freshState (by simp)
  · intro outs st h
    exact (run_counter cx args (input.length + 1) (Call.segment input 0)
      true freshState outs st h).2 (by simp [freshState, ITER_LIMIT])

theorem parse_terminates_within_budget_witness :
    (runTop (asciiBytes "\x7bargslen\x7d") [] nopContext).isSome = true ∧
    ({ vars := [], counter := 1, attachment := none } : TagState).counter ≤
      ITER_LIMIT :=
  ⟨(parse_terminates_within_budget (asciiBytes "\x7bargslen\x7d") []
      nopContext (by decide)).1,
    (parse_terminates_within_budget (asciiBytes "\x7bargslen\x7d") []
      nopContext (by decide)).2 [0x30]
      { vars := [], counter := 1, attachment := none } (by decide)⟩

/-- C3: whenever the shared counter has reached the ceiling, evaluating
any further invocation fails with the iteration-budget error — no partial
rendering escapes past the ceiling, because the error value carries no
output; in particular the input `\x7bmax:0\x7d` repeated 501 times fails
with the iteration-budget error anchored at the 501st invocation. -/
theorem iter_limit_enforced :
    (∀ (cx : Context) (args : List ByteStr) (fuel : Nat) (body : ByteStr)
      (pos : Nat) (se : Bool) (st : TagState), ITER_LIMIT ≤ st.counter →
      run cx args (fuel + 1) (Call.invocation body pos) se st =
        some (Except.error (TagError.iterLimit pos))) ∧
    errOf (parse ((List.replicate 501 (asciiBytes "\x7bmax:0\x7d")).flatten)
        [] nopContext) = some (TagError.iterLimit 3500) := by
  constructor
  · intro cx args fuel body pos se st h
    simp only [run]
    rw [if_pos (by simp only [ITER_LIMIT] at *; omega)]
  · rw [show asciiBytes "\x7bmax:0\x7d" = maxUnit from by decide,
      show (List.replicate 501 maxUnit).flatten = iterInput from rfl]
    exact iterInput_parse

theorem iter_limit_enforced_witness :
    ITER_LIMIT ≤ (500 : Nat) ∧
    run nopContext [] 1 (Call.invocation [] 0) true
      { vars := [], counter := 500, attachment := none } =
      some (Except.error (TagError.iterLimit 0)) :=
  ⟨by decide, iter_limit_enforced.1 nopContext [] 0 [] 0 true
    { vars := [], counter := 500, attachment := none } (by decide)⟩

/-- C4: for every original input byte sequence and every error value,
`format_error` renders a message and never panics, even when the
reported offset lands on a non-character boundary: the offset is snapped
to a boundary first, so the checked slices always succeed. -/
theorem format_error_never_panics :
    ∀ (input : ByteStr) (err : TagError),
    (formatError input err).isSome = true :=
  fun input err => formatError_isSome input err

/-- C5: the conditional subtag evaluates only the branch its comparison
selects: when the comparison is true the result — output, variable
writes, attachment state and iteration-budget consumption alike — is
independent of the unselected else-branch, and symmetrically for false;
in particular the two `if` test inputs both render `ok`. -/
theorem if_evaluates_only_selected_branch :
    okOf (parse (asciiBytes "\x7bif:\x7bargslen\x7d|=|0|ok|wrong\x7d") []
        nopContext) =
      some { output := asciiBytes "ok", attachment := none } ∧
    okOf (parse (asciiBytes "\x7bif:\x7bargslen\x7d|=|1|wrong|ok\x7d") []
        nopContext) =
      some { output := asciiBytes "ok", attachment := none } ∧
    (∀ (eval : ByteStr → TagState → MRes) (args : List ByteStr)
      (v1 op v2 tB eB eB2 : ByteStr) (se : Bool) (pos : Nat)
      (st st1 : TagState) (a o b : ByteStr),
      evalList eval [v1, op, v2] st = some (Except.ok ([a, o, b], st1)) →
      compareOp o a b = some true →
      dispatch eval args (asciiBytes "if") [v1, op, v2, tB, eB] se pos st =
        dispatch eval args (asciiBytes "if") [v1, op, v2, tB, eB2] se pos
          st) ∧
    (∀ (eval : ByteStr → TagState → MRes) (args : List ByteStr)
      (v1 op v2 tB tB2 eB : ByteStr) (se : Bool) (pos : Nat)
      (st st1 : TagState) (a o b : ByteStr),
      evalList eval [v1, op, v2] st = some (Except.ok ([a, o, b], st1)) →
      compareOp o a b = some false →
      dispatch eval args (asciiBytes "if") [v1, op, v2, tB, eB] se pos st =
        dispatch eval args (asciiBytes "if") [v1, op, v2, tB2, eB] se pos
          st) := by
  refine ⟨by decide, by decide, ?_, ?_⟩
  · intro eval args v1 op v2 tB eB eB2 se pos st st1 a o b h1 h2
    have key : ∀ eBx : ByteStr,
        dispatch eval args (asciiBytes "if") [v1, op, v2, tB, eBx] se pos st
        = eval tB st1 := by
      intro eBx
      unfold dispatch
      rw [if_neg (by decide), if_neg (by decide), if_neg (by decide),
        if_pos rfl]
      simp only [h1, mbindL]
      rw [h2]
    rw [key eB, key eB2]
  · intro eval args v1 op v2 tB tB2 eB se pos st st1 a o b h1 h2
    have key : ∀ tBx : ByteStr,
        dispatch eval args (asciiBytes "if") [v1, op, v2, tBx, eB] se pos st
        = eval eB st1 := by
      intro tBx
      unfold dispatch
      rw [if_neg (by decide), if_neg (by decide), if_neg (by decide),
        if_pos rfl]
      simp only [h1, mbindL]
      rw [h2]
    rw [key tB, key tB2]

theorem if_evaluates_only_selected_branch_witness :
    evalList (fun bx stx => some (Except.ok (bx, stx)))
        [[0x30], [0x3D], [0x30]] freshState =
      some (Except.ok ([[0x30], [0x3D], [0x30]], freshState)) ∧
    compareOp [0x3D] [0x30] [0x30] = some true ∧
    dispatch (fun bx stx => some (Except.ok (bx, stx))) []
        (asciiBytes "if") [[0x30], [0x3D], [0x30], [0x61], [0x62]] true 0
        freshState =
      dispatch (fun bx stx => some (Except.ok (bx, stx))) []
        (asciiBytes "if") [[0x30], [0x3D], [0x30], [0x61], [0x63]] true 0
        freshState :=
  ⟨by decide, by decide,
    if_evaluates_only_selected_branch.2.2.1
      (fun bx stx => some (Except.ok (bx, stx))) [] [0x30] [0x3D] [0x30]
      [0x61] [0x62] [0x63] true 0 freshState freshState [0x30] [0x3D]
      [0x30] (by decide) (by decide)⟩

/-- C6: every failure during evaluation aborts the whole top-level parse
and surfaces unchanged as a typed error value; the partial output and
state at the failure point are discarded — the error result carries no
output string and no attachment. -/
theorem errors_propagate_discarding_partial :
    ∀ (input : ByteStr) (args : List ByteStr) (cx : Context)
    (e : TagError), runTop input args cx = some (Except.error e) →
    parse input args cx = some (Except.error e) := by
  intro input args cx e h
  unfold runTop freshState at h
  show Option.map
    (fun r => Except.map
      (fun p : ByteStr × TagState =>
        ({ output := p.1, attachment := p.2.attachment } : ParseResult)) r)
    (run cx args (input.length + 1) (Call.segment input 0) true
      { vars := [], counter := 0, attachment := none }) =
    some (Except.error e)
  rw [h]
  rfl

theorem errors_propagate_discarding_partial_witness :
    parse [0x7B] [] nopContext =
      some (Except.error (TagError.missingClosingBrace 0)) :=
  errors_propagate_discarding_partial [0x7B] [] nopContext
    (TagError.missingClosingBrace 0) (by decide)

/-- C7: within one request the shared iteration counter is monotonically
non-decreasing across the whole evaluation tree — no operation decreases
it — and a nested parse entered through `parse_with_parent` continues
from the parent's counter rather than resetting it. -/
theorem counter_monotone_never_reset :
    (∀ (cx : Context) (args : List ByteStr) (fuel : Nat) (c : Call)
      (se : Bool) (st : TagState) (out : ByteStr) (st' : TagState),
      run cx args fuel c se st = some (Except.ok (out, st')) →
      st.counter ≤ st'.counter) ∧
    (∀ (cx : Context) (args : List ByteStr) (input : ByteStr) (pos : Nat)
      (se : Bool) (st : TagState) (out : ByteStr) (st' : TagState),
      parseWithParent cx args input pos se st =
        some (Except.ok (out, st')) →
      st.counter ≤ st'.counter) := by
  constructor
  · intro cx args fuel c se st out st' h
    exact (run_counter cx args fuel c se st out st' h).1
  · intro cx args input pos se st out st' h
    unfold parseWithParent at h
    exact (run_counter cx args (input.length + 1) (Call.segment input pos)
      se st out st' h).1

theorem counter_monotone_never_reset_witness :
    parseWithParent nopContext [] [0x61] 0 true
      { vars := [], counter := 7, attachment := none } =
      some (Except.ok ([0x61],
        { vars := [], counter := 7, attachment := none })) ∧
    (7 : Nat) ≤ 7 :=
  ⟨by decide,
    counter_monotone_never_reset.2 nopContext [] [0x61] 0 true
      { vars := [], counter := 7, attachment := none } [0x61]
      { vars := [], counter := 7, attachment := none } (by decide)⟩

/-- C8: a variable written by a set-style subtag is readable by a later
invocation of the same top-level parse call (the set-then-get input
renders the stored value), the store always yields the most recent write,
and two top-level parse calls share no state: every parse starts from the
fresh empty state, so nothing set in one call is observable in another. -/
theorem variable_scoping :
    okOf (parse (asciiBytes "\x7bset:x|hello\x7d\x7bget:x\x7d") []
        nopContext) =
      some { output := asciiBytes "hello", attachment := none } ∧
    (∀ (n v : ByteStr) (vs : List (ByteStr × ByteStr)),
      lookupVar n ((n, v) :: vs) = some v) ∧
    (∀ (input : ByteStr) (args : List ByteStr) (cx : Context),
      parse input args cx = parseFrom freshState input args cx) := by
  refine ⟨by decide, ?_, ?_⟩
  · intro n v vs
    simp [lookupVar]
  · intro input args cx
    rfl

/-- C9: when scanning an invocation reaches end-of-input before the
matching closing brace, the segment fails with the
unterminated-invocation (missing-closing-brace) error anchored at the
opening brace; in particular the input `zzzz@z\x7bz` fails with that
error at offset 6. -/
theorem unterminated_invocation_error :
    (∀ (cx : Context) (args : List ByteStr) (fuel pos : Nat)
      (rest : ByteStr) (se : Bool) (st : TagState),
      scanInvocation rest 0 false = none →
      run cx args (fuel + 1) (Call.segment (0x7B :: rest) pos) se st =
        some (Except.error (TagError.missingClosingBrace pos))) ∧
    errOf (parse (asciiBytes "zzzz@z\x7bz") [] nopContext) =
      some (TagError.missingClosingBrace 6) := by
  constructor
  · intro cx args fuel pos rest se st h
    simp [run, h]
  · decide

theorem unterminated_invocation_error_witness :
    scanInvocation [0x7A] 0 false = none ∧
    run nopContext [] 5 (Call.segment [0x7B, 0x7A] 0) true freshState =
      some (Except.error (TagError.missingClosingBrace 0)) :=
  ⟨by decide,
    unterminated_invocation_error.1 nopContext [] 4 0 [0x7A] true
      freshState (by decide)⟩

/-- C10: with the no-op capability context, `parse` is deterministic —
it is a pure function of the input and arguments, two calls agree, and
each call constructs the same fresh state: empty variable store, zero
counter, empty attachment slot. -/
theorem parse_deterministic_nop :
    ∀ (input : ByteStr) (args : List ByteStr),
    parse input args nopContext =
      parseFrom freshState input args nopContext ∧
    parse input args nopContext = parse input args nopContext ∧
    freshState.vars = [] ∧ freshState.counter = 0 ∧
    freshState.attachment = none := by
  intro input args
  exact ⟨rfl, rfl, rfl, rfl, rfl⟩

end AssystTag
